import Mathlib

/-!
Verification development for the NRAI-Kancha caching and connection-pooling
core (src/services/cacheService.js and the optimized speech service's
connection pool).  The JavaScript is shallowly embedded: JS `Map` objects
(which iterate in insertion order) become association lists, timestamps
(`Date.now()`) become explicit `Nat` parameters, and the opaque provider
connection handles become `Nat` identities drawn from a fresh-name supply.
-/

namespace NRAI

/-! ## JS `Map` semantics

A JavaScript `Map` preserves insertion order; `set` on an existing key
updates the value in place (the key keeps its original position), `set` on
a fresh key appends at the end, `delete` removes the entry, and
`keys().next().value` is the oldest-inserted key.  We model a `Map` as an
association list in insertion order. -/

/-- Lookup in a JS `Map`: value of the first (unique) entry with the given key. -/
def jsMapGet {κ V : Type} [DecidableEq κ] : List (κ × V) → κ → Option V
  | [], _ => none
  | (k', v) :: rest, k => if k' = k then some v else jsMapGet rest k

/-- JS `Map.set`: overwrite in place when the key is present, append otherwise. -/
def jsMapSet {κ V : Type} [DecidableEq κ] : List (κ × V) → κ → V → List (κ × V)
  | [], k, v => [(k, v)]
  | (k', v') :: rest, k, v =>
    if k' = k then (k, v) :: rest else (k', v') :: jsMapSet rest k v

/-- JS `Map.delete`: remove the entry with the given key (keys are unique). -/
def jsMapDelete {κ V : Type} [DecidableEq κ] : List (κ × V) → κ → List (κ × V)
  | [], _ => []
  | (k', v') :: rest, k =>
    if k' = k then rest else (k', v') :: jsMapDelete rest k

/-! ## Cache engine (src/services/cacheService.js) -/

/-- A cache entry as stored by `CacheService`: `{ data, expires }` where
`expires = Date.now() + ttl` at insertion time. -/
structure CacheEntry (V : Type) where
  data : V
  expires : Nat
deriving DecidableEq, Repr

/-- Cache configuration from the `CacheService` constructor. -/
structure CacheConfig where
  responseMaxSize : Nat
  responseTTL : Nat
  languageMaxSize : Nat
  languageTTL : Nat
  transcriptMaxSize : Nat
  transcriptTTL : Nat

/-- The configured capacities and TTLs: 100 entries / 5 min for responses,
50 entries / 2 min for language detection, 30 entries / 1 min for transcripts. -/
def cacheConfig : CacheConfig :=
  { responseMaxSize := 100, responseTTL := 5 * 60 * 1000
    languageMaxSize := 50, languageTTL := 2 * 60 * 1000
    transcriptMaxSize := 30, transcriptTTL := 1 * 60 * 1000 }

/-- The shared tier-level `set` logic of `setResponse`/`setLanguage`/`setTranscript`:
if `size >= maxSize`, delete the first (oldest-inserted) key, then
`set key { data, expires := now + ttl }`.  The eviction check precedes the
insert and does not test whether `key` is already present. -/
def tierSet {κ V : Type} [DecidableEq κ] (maxSize ttl now : Nat)
    (cache : List (κ × CacheEntry V)) (key : κ) (value : V) :
    List (κ × CacheEntry V) :=
  let cache' :=
    if maxSize ≤ cache.length then
      match cache.head? with
      | some p => jsMapDelete cache p.1
      | none => cache
    else cache
  jsMapSet cache' key { data := value, expires := now + ttl }

/-- The shared tier-level `get` logic of `getResponse`/`getLanguage`/`getTranscript`:
return the cached data only when the entry is present and `expires > now`;
an expired-but-present entry is a miss and is not removed. -/
def tierGet {κ V : Type} [DecidableEq κ] (cache : List (κ × CacheEntry V))
    (now : Nat) (key : κ) : Option V :=
  match jsMapGet cache key with
  | some e => if now < e.expires then some e.data else none
  | none => none

/-- Modelled from the spec: the md5 hex digest supplied by node's `crypto`
module (external library code, not part of this repository).  The spec calls
it a collision-resistant digest; theorems about key derivation therefore
quantify over an arbitrary deterministic `digest : String → String`, and this
concrete stand-in (injective, hence collision-free) instantiates it in
witnesses and counterexamples. -/
def md5Model : String → String := fun s => s

/-- Embedding of `CacheService.generateKey(input, type)`: returns `type ++ ":" ++ md5hex(input)`. -/
def generateKey (digest : String → String) (input ty : String) : String :=
  ty ++ ":" ++ digest input

/-- The key-derivation input used by `getResponse`/`setResponse`: the template
literal `${message}:${sessionId}`. -/
def responseKeyInput (message sessionId : String) : String :=
  message ++ ":" ++ sessionId

/-- The response-cache key: `generateKey(message ++ ":" ++ sessionId, "response")`. -/
def responseKeyOf (digest : String → String) (message sessionId : String) : String :=
  generateKey digest (responseKeyInput message sessionId) "response"

/-- Embedding of `CacheService.getResponse(message, sessionId)`. -/
def getResponse {V : Type} (digest : String → String)
    (cache : List (String × CacheEntry V)) (now : Nat)
    (message sessionId : String) : Option V :=
  tierGet cache now (responseKeyOf digest message sessionId)

/-- Embedding of `CacheService.setResponse(message, sessionId, response)`. -/
def setResponse {V : Type} (digest : String → String) (now : Nat)
    (cache : List (String × CacheEntry V))
    (message sessionId : String) (response : V) : List (String × CacheEntry V) :=
  tierSet cacheConfig.responseMaxSize cacheConfig.responseTTL now cache
    (responseKeyOf digest message sessionId) response

/-- Embedding of `CacheService.getLanguage(audioHash)` (key type `"lang"`). -/
def getLanguage {V : Type} (digest : String → String)
    (cache : List (String × CacheEntry V)) (now : Nat) (audioHash : String) :
    Option V :=
  tierGet cache now (generateKey digest audioHash "lang")

/-- Embedding of `CacheService.setLanguage(audioHash, language)`. -/
def setLanguage {V : Type} (digest : String → String) (now : Nat)
    (cache : List (String × CacheEntry V)) (audioHash : String) (language : V) :
    List (String × CacheEntry V) :=
  tierSet cacheConfig.languageMaxSize cacheConfig.languageTTL now cache
    (generateKey digest audioHash "lang") language

/-- Embedding of `CacheService.getTranscript(audioHash)` (key type `"transcript"`). -/
def getTranscript {V : Type} (digest : String → String)
    (cache : List (String × CacheEntry V)) (now : Nat) (audioHash : String) :
    Option V :=
  tierGet cache now (generateKey digest audioHash "transcript")

/-- Embedding of `CacheService.setTranscript(audioHash, transcript)`. -/
def setTranscript {V : Type} (digest : String → String) (now : Nat)
    (cache : List (String × CacheEntry V)) (audioHash : String) (transcript : V) :
    List (String × CacheEntry V) :=
  tierSet cacheConfig.transcriptMaxSize cacheConfig.transcriptTTL now cache
    (generateKey digest audioHash "transcript") transcript

/-- A sequence of `setResponse` calls, each with its own timestamp, message,
session id and value, run against an initially empty response tier. -/
def responseRun {V : Type} (digest : String → String)
    (ops : List (Nat × String × String × V)) : List (String × CacheEntry V) :=
  ops.foldl (fun m op => setResponse digest op.1 m op.2.1 op.2.2.1 op.2.2.2) []

/-- A sequence of `setLanguage` calls run against an initially empty language tier. -/
def languageRun {V : Type} (digest : String → String)
    (ops : List (Nat × String × V)) : List (String × CacheEntry V) :=
  ops.foldl (fun m op => setLanguage digest op.1 m op.2.1 op.2.2) []

/-- A sequence of `setTranscript` calls run against an initially empty transcript tier. -/
def transcriptRun {V : Type} (digest : String → String)
    (ops : List (Nat × String × V)) : List (String × CacheEntry V) :=
  ops.foldl (fun m op => setTranscript digest op.1 m op.2.1 op.2.2) []

/-! ## Connection pool (OptimizedSpeechService)

The pool holds slot objects `{ config, inUse, temporary?, created, lastUsed }`.
`config` is an opaque handle returned by `sdk.SpeechConfig.fromSubscription`;
each such call allocates a new object, modelled by drawing a fresh `Nat`
identity from a `nextConfig` supply carried in the pool state.  Pool slots
created by `initializeConfigPool` have no `temporary` field (JS `undefined`,
falsy), modelled as `temporary = false`.  JS mutates slot objects in place
through references; we model a released slot's identity by its unique
`config` handle. -/

/-- One pool slot, as built by `initializeConfigPool` / `getConfigFromPool`. -/
structure PoolItem where
  config : Nat
  inUse : Bool
  temporary : Bool
  created : Nat
  lastUsed : Nat
deriving DecidableEq, Repr

/-- The `poolStats` counters `{ created, reused, destroyed }`. -/
structure PoolStats where
  created : Nat
  reused : Nat
  destroyed : Nat
deriving DecidableEq, Repr

/-- The pool-relevant state of `OptimizedSpeechService`: the `configPool`
array, the `poolStats` counters, and the fresh-handle supply modelling
`sdk.SpeechConfig.fromSubscription` allocations. -/
structure PoolState where
  configPool : List PoolItem
  poolStats : PoolStats
  nextConfig : Nat
deriving DecidableEq, Repr

/-- The pool size, `this.poolSize = 5`. -/
def poolSize : Nat := 5

/-- The staleness threshold in `performPoolMaintenance`: `5 * 60 * 1000` ms. -/
def poolMaxAge : Nat := 5 * 60 * 1000

/-- Embedding of `initializeConfigPool()`: eagerly create `poolSize` slots, all
`inUse = false`, with `created = lastUsed = now`, incrementing
`poolStats.created` once per slot. -/
def initializeConfigPool (now : Nat) : PoolState :=
  { configPool := (List.range poolSize).map fun i =>
      { config := i, inUse := false, temporary := false, created := now, lastUsed := now }
    poolStats := { created := poolSize, reused := 0, destroyed := 0 }
    nextConfig := poolSize }

/-- The `configPool.find(item => !item.inUse)` step of `getConfigFromPool`,
together with the in-place mutation of the found slot: returns the first
available slot (with `inUse := true, lastUsed := now`) and the updated list,
or `none` when every slot is in use. -/
def acquireFromList (now : Nat) : List PoolItem → Option (PoolItem × List PoolItem)
  | [] => none
  | it :: rest =>
    if it.inUse then
      match acquireFromList now rest with
      | none => none
      | some (item, rest') => some (item, it :: rest')
    else
      some ({ it with inUse := true, lastUsed := now },
            { it with inUse := true, lastUsed := now } :: rest)

/-- Embedding of `getConfigFromPool()`: reuse the first available slot (incrementing
`poolStats.reused`), or — when all slots are in use — build a brand-new slot
marked `temporary: true, inUse: true` (incrementing `poolStats.created`).
The function is total: it never blocks and never fails. -/
def getConfigFromPool (now : Nat) (st : PoolState) : PoolItem × PoolState :=
  match acquireFromList now st.configPool with
  | some (item, pool') =>
    (item, { st with configPool := pool'
                     poolStats := { st.poolStats with reused := st.poolStats.reused + 1 } })
  | none =>
    ({ config := st.nextConfig, inUse := true, temporary := true,
       created := now, lastUsed := now },
     { st with poolStats := { st.poolStats with created := st.poolStats.created + 1 }
               nextConfig := st.nextConfig + 1 })

/-- Embedding of `returnConfigToPool(poolItem)`: a temporary slot has its handle closed
(`config.close()`, an external-resource effect) and `poolStats.destroyed` is
incremented; a non-temporary slot is marked `inUse = false` with `lastUsed`
updated, in place (modelled by updating the pool entry carrying the same
handle identity). -/
def returnConfigToPool (now : Nat) (st : PoolState) (item : PoolItem) : PoolState :=
  if item.temporary then
    { st with poolStats := { st.poolStats with destroyed := st.poolStats.destroyed + 1 } }
  else
    { st with configPool := st.configPool.map fun it =>
        if it.config = item.config then { it with inUse := false, lastUsed := now } else it }

/-- The `configPool.forEach` body of `performPoolMaintenance`, threading the
fresh-handle supply: every slot that is not in use and whose `lastUsed` is
more than `maxAge` ago gets its handle closed and replaced by a fresh one,
with `created` and `lastUsed` reset to `now`; every other slot is untouched. -/
def maintainSlots (now maxAge : Nat) : Nat → List PoolItem → List PoolItem × Nat
  | next, [] => ([], next)
  | next, it :: rest =>
    if !it.inUse && maxAge < now - it.lastUsed then
      let res := maintainSlots now maxAge (next + 1) rest
      ({ it with config := next, created := now, lastUsed := now } :: res.1, res.2)
    else
      let res := maintainSlots now maxAge next rest
      (it :: res.1, res.2)

/-- Embedding of `performPoolMaintenance()`: refresh every stale idle slot in place.
The `poolStats` counters are not touched. -/
def performPoolMaintenance (now : Nat) (st : PoolState) : PoolState :=
  let res := maintainSlots now poolMaxAge st.nextConfig st.configPool
  { st with configPool := res.1, nextConfig := res.2 }

/-- The `forEach` body of `performPoolMaintenance` when refreshing a slot's
handle can throw (for slots whose handle `fail` marks): the exception
propagates out of `forEach`, so the failing slot keeps its record unchanged
and no later slot is visited; refreshes already performed on earlier slots
persist (JS mutates in place).  The `Bool` result records whether the sweep
ran to completion. -/
def maintainSlotsF (fail : Nat → Bool) (now maxAge : Nat) :
    Nat → List PoolItem → List PoolItem × Nat × Bool
  | next, [] => ([], next, true)
  | next, it :: rest =>
    if !it.inUse && maxAge < now - it.lastUsed then
      if fail it.config then
        (it :: rest, next, false)
      else
        let res := maintainSlotsF fail now maxAge (next + 1) rest
        ({ it with config := next, created := now, lastUsed := now } :: res.1, res.2.1, res.2.2)
    else
      let res := maintainSlotsF fail now maxAge next rest
      (it :: res.1, res.2.1, res.2.2)

/-- Embedding of `performPoolMaintenance()` with fallible handle refresh: the resulting
state (in-place mutations persist up to the throwing slot) together with a
flag telling whether the sweep completed without throwing. -/
def performPoolMaintenanceF (fail : Nat → Bool) (now : Nat) (st : PoolState) :
    PoolState × Bool :=
  let res := maintainSlotsF fail now poolMaxAge st.nextConfig st.configPool
  ({ st with configPool := res.1, nextConfig := res.2.1 }, res.2.2)

/-- One step of the pool's public protocol: an `acquire`
(`getConfigFromPool`), a `release` (`returnConfigToPool`, with any slot
value), or a maintenance sweep, each at an arbitrary time. -/
inductive PoolStep : PoolState → PoolState → Prop
  | acquire (now : Nat) (st : PoolState) : PoolStep st (getConfigFromPool now st).2
  | release (now : Nat) (item : PoolItem) (st : PoolState) :
      PoolStep st (returnConfigToPool now st item)
  | maintain (now : Nat) (st : PoolState) : PoolStep st (performPoolMaintenance now st)

/-- Reachability under any finite sequence of pool operations. -/
inductive PoolReachable : PoolState → PoolState → Prop
  | refl (st : PoolState) : PoolReachable st st
  | tail {st st' st'' : PoolState} :
      PoolReachable st st' → PoolStep st' st'' → PoolReachable st st''

/-- Well-formedness of the handle supply: every handle in the pool is
strictly below the next fresh handle, a given handle `c` is below the supply
and is carried by no pool slot.  This is the invariant that makes a destroyed
temporary slot's handle unreturnable. -/
def PoolAvoid (c : Nat) (st : PoolState) : Prop :=
  (∀ it ∈ st.configPool, it.config < st.nextConfig) ∧
  c < st.nextConfig ∧
  ∀ it ∈ st.configPool, it.config ≠ c

instance (c : Nat) (st : PoolState) : Decidable (PoolAvoid c st) := by
  unfold PoolAvoid; infer_instance

/-- Thirty distinct audio hashes, enough to fill the transcript tier
(capacity 30) exactly. -/
def transcriptHashes : List String := (List.range 30).map fun i => "h" ++ toString i

/-- The transcript tier after caching one transcript under each of the 30
distinct audio hashes, i.e. a tier exactly at capacity. -/
def transcriptFull : List (String × CacheEntry String) :=
  transcriptHashes.foldl (fun m h => setTranscript md5Model 0 m h "t") []

/-- Thirty-one pairwise-distinct keys for exercising eviction order at the
transcript tier's capacity of 30: the first thirty... -/
def evictionFront : List (Nat × Nat) := (List.range 30).map fun i => (i, i)

/-- All thirty-one keys, inserted in order. -/
def evictionKvs : List (Nat × Nat) := evictionFront ++ [(30, 30)]

/-! ## Basic lemmas about the JS `Map` model -/

set_option maxRecDepth 100000

theorem jsMapGet_set_self {κ V : Type} [DecidableEq κ] (m : List (κ × V)) (k : κ) (v : V) :
    jsMapGet (jsMapSet m k v) k = some v := by
  induction m with
  | nil => simp [jsMapSet, jsMapGet]
  | cons p rest ih =>
    obtain ⟨a, b⟩ := p
    by_cases h : a = k
    · subst h; simp [jsMapSet, jsMapGet]
    · simp [jsMapSet, jsMapGet, h, ih]

theorem jsMapGet_eq_none_iff {κ V : Type} [DecidableEq κ] (m : List (κ × V)) (k : κ) :
    jsMapGet m k = none ↔ k ∉ m.map Prod.fst := by
  induction m with
  | nil => simp [jsMapGet]
  | cons p rest ih =>
    obtain ⟨a, b⟩ := p
    by_cases h : a = k
    · subst h; simp [jsMapGet]
    · simp [jsMapGet, h, ih, Ne.symm h]

theorem jsMapGet_isSome_iff {κ V : Type} [DecidableEq κ] (m : List (κ × V)) (k : κ) :
    (jsMapGet m k).isSome ↔ k ∈ m.map Prod.fst := by
  rw [Option.isSome_iff_ne_none, ne_eq, jsMapGet_eq_none_iff, not_not]

theorem jsMapSet_length_of_isSome {κ V : Type} [DecidableEq κ] (m : List (κ × V))
    (k : κ) (v : V) (h : (jsMapGet m k).isSome) :
    (jsMapSet m k v).length = m.length := by
  induction m with
  | nil => simp [jsMapGet] at h
  | cons p rest ih =>
    obtain ⟨a, b⟩ := p
    by_cases hk : a = k
    · subst hk; simp [jsMapSet]
    · simp only [jsMapGet, hk, if_false] at h
      simp [jsMapSet, hk, ih h]

theorem jsMapSet_length_le {κ V : Type} [DecidableEq κ] (m : List (κ × V)) (k : κ) (v : V) :
    (jsMapSet m k v).length ≤ m.length + 1 := by
  induction m with
  | nil => simp [jsMapSet]
  | cons p rest ih =>
    obtain ⟨a, b⟩ := p
    by_cases hk : a = k
    · subst hk; simp [jsMapSet]
    · simp only [jsMapSet, hk, if_false, List.length_cons]
      omega

theorem jsMapSet_of_get_none {κ V : Type} [DecidableEq κ] (m : List (κ × V)) (k : κ) (v : V)
    (h : jsMapGet m k = none) : jsMapSet m k v = m ++ [(k, v)] := by
  induction m with
  | nil => simp [jsMapSet]
  | cons p rest ih =>
    obtain ⟨a, b⟩ := p
    by_cases hk : a = k
    · simp [jsMapGet, hk] at h
    · simp only [jsMapGet, hk, if_false] at h
      simp [jsMapSet, hk, ih h]

theorem jsMapGet_append_right {κ V : Type} [DecidableEq κ] (m₁ m₂ : List (κ × V)) (k : κ)
    (h : k ∉ m₁.map Prod.fst) : jsMapGet (m₁ ++ m₂) k = jsMapGet m₂ k := by
  induction m₁ with
  | nil => simp
  | cons p rest ih =>
    obtain ⟨a, b⟩ := p
    simp only [List.map_cons, List.mem_cons, not_or] at h
    have ha : a ≠ k := fun hak => h.1 hak.symm
    simp [jsMapGet, ha, ih h.2]

theorem jsMapDelete_cons_self {κ V : Type} [DecidableEq κ] (p : κ × V) (m : List (κ × V)) :
    jsMapDelete (p :: m) p.1 = m := by
  obtain ⟨a, b⟩ := p
  simp [jsMapDelete]

/-- A tier `set` on a full tier first deletes the oldest-inserted entry. -/
theorem tierSet_full_cons {κ V : Type} [DecidableEq κ] (C ttl now : Nat)
    (p : κ × CacheEntry V) (rest : List (κ × CacheEntry V)) (k : κ) (v : V)
    (hfull : C ≤ (p :: rest).length) :
    tierSet C ttl now (p :: rest) k v =
      jsMapSet rest k { data := v, expires := now + ttl } := by
  simp only [tierSet, hfull, if_true, List.head?_cons, jsMapDelete_cons_self]

/-! ## Tier-level lemmas -/

/-- One `set` call keeps a tier within its capacity bound (the source evicts
the oldest key before inserting whenever the tier is full). -/
theorem tierSet_length_le {κ V : Type} [DecidableEq κ] (C ttl now : Nat)
    (m : List (κ × CacheEntry V)) (k : κ) (v : V) (hC : 1 ≤ C) (h : m.length ≤ C) :
    (tierSet C ttl now m k v).length ≤ C := by
  by_cases hfull : C ≤ m.length
  · have hm : m.length = C := le_antisymm h hfull
    cases m with
    | nil => simp at hm; omega
    | cons p rest =>
      have hset := jsMapSet_length_le rest k ({ data := v, expires := now + ttl } : CacheEntry V)
      simp only [tierSet, hfull, if_true, List.head?_cons, jsMapDelete_cons_self]
      simp only [List.length_cons] at hm
      omega
  · have hset := jsMapSet_length_le m k ({ data := v, expires := now + ttl } : CacheEntry V)
    simp only [tierSet, hfull, if_false]
    omega

/-- Folding tier `set` calls from any within-capacity state stays within capacity. -/
theorem foldl_tierSet_length_le {κ V ι : Type} [DecidableEq κ] (C ttl : Nat)
    (time : ι → Nat) (key : ι → κ) (val : ι → V) (hC : 1 ≤ C) :
    ∀ (ops : List ι) (m : List (κ × CacheEntry V)), m.length ≤ C →
      (ops.foldl (fun m op => tierSet C ttl (time op) m (key op) (val op)) m).length ≤ C := by
  intro ops
  induction ops with
  | nil => intro m hm; simpa using hm
  | cons op rest ih =>
    intro m hm
    exact ih _ (tierSet_length_le C ttl (time op) m (key op) (val op) hC hm)

/-- C1. For every tier (response, language, transcript) and every sequence of
`set` calls on that tier, the number of resident entries after each call
(i.e. after every prefix of the sequence) is at most that tier's configured
capacity: 100 for responses, 50 for language detection, 30 for transcripts.
The bound is enforced on insert: `set` evicts the oldest key before
inserting whenever the tier is full. -/
theorem cache_capacity_invariant {V : Type} (digest : String → String)
    (ops₁ : List (Nat × String × String × V)) (ops₂ ops₃ : List (Nat × String × V))
    (n₁ n₂ n₃ : Nat) :
    (responseRun digest (ops₁.take n₁)).length ≤ cacheConfig.responseMaxSize ∧
    (languageRun digest (ops₂.take n₂)).length ≤ cacheConfig.languageMaxSize ∧
    (transcriptRun digest (ops₃.take n₃)).length ≤ cacheConfig.transcriptMaxSize := by
  refine ⟨?_, ?_, ?_⟩
  · exact foldl_tierSet_length_le cacheConfig.responseMaxSize cacheConfig.responseTTL
      (fun op => op.1) (fun op => responseKeyOf digest op.2.1 op.2.2.1) (fun op => op.2.2.2)
      (by norm_num [cacheConfig]) (ops₁.take n₁) [] (by simp)
  · exact foldl_tierSet_length_le cacheConfig.languageMaxSize cacheConfig.languageTTL
      (fun op => op.1) (fun op => generateKey digest op.2.1 "lang") (fun op => op.2.2)
      (by norm_num [cacheConfig]) (ops₂.take n₂) [] (by simp)
  · exact foldl_tierSet_length_le cacheConfig.transcriptMaxSize cacheConfig.transcriptTTL
      (fun op => op.1) (fun op => generateKey digest op.2.1 "transcript") (fun op => op.2.2)
      (by norm_num [cacheConfig]) (ops₃.take n₃) [] (by simp)

/-- C7. TTL correctness, for every tier (capacity `C`, time-to-live `ttl`):
after `set(k, v)` at time `t`, the entry is physically present with
`expires = t + ttl`; `get(k)` at time `t + ttl - ε` (for `1 ≤ ε ≤ ttl`)
returns `v`, and `get(k)` at time `t + ttl + ε` returns absent even though
the entry is still physically present — an expired-but-present entry is
treated as a miss and is not removed.  `get` is a pure lookup, so a miss has
no side effects on the tier. -/
theorem tier_ttl_correctness {κ V : Type} [DecidableEq κ] (C ttl t ε : Nat)
    (m : List (κ × CacheEntry V)) (k : κ) (v : V)
    (hε : 1 ≤ ε) (hεttl : ε ≤ ttl) :
    jsMapGet (tierSet C ttl t m k v) k = some { data := v, expires := t + ttl } ∧
    tierGet (tierSet C ttl t m k v) (t + ttl - ε) k = some v ∧
    tierGet (tierSet C ttl t m k v) (t + ttl + ε) k = none := by
  have hget : jsMapGet (tierSet C ttl t m k v) k =
      some { data := v, expires := t + ttl } := by
    simp only [tierSet]
    exact jsMapGet_set_self _ _ _
  refine ⟨hget, ?_, ?_⟩
  · simp only [tierGet, hget]
    rw [if_pos (by omega)]
  · simp only [tierGet, hget]
    rw [if_neg (by omega)]

/-- C7 witness: the response-tier parameters (capacity 100, TTL 300000 ms),
with a single entry set at time 1000 and ε = 1. -/
theorem tier_ttl_correctness_witness :
    (1 : Nat) ≤ 1 ∧ (1 : Nat) ≤ 300000 ∧
    jsMapGet (tierSet 100 300000 1000 ([] : List (Nat × CacheEntry Nat)) 5 7) 5 =
      some { data := 7, expires := 1000 + 300000 } ∧
    tierGet (tierSet 100 300000 1000 ([] : List (Nat × CacheEntry Nat)) 5 7)
      (1000 + 300000 - 1) 5 = some 7 ∧
    tierGet (tierSet 100 300000 1000 ([] : List (Nat × CacheEntry Nat)) 5 7)
      (1000 + 300000 + 1) 5 = none :=
  ⟨Nat.le_refl 1, by norm_num,
   (tier_ttl_correctness 100 300000 1000 1 [] 5 7 (Nat.le_refl 1) (by norm_num)).1,
   (tier_ttl_correctness 100 300000 1000 1 [] 5 7 (Nat.le_refl 1) (by norm_num)).2.1,
   (tier_ttl_correctness 100 300000 1000 1 [] 5 7 (Nat.le_refl 1) (by norm_num)).2.2⟩

/-- C2 counterexample: in the transcript tier at its capacity of 30, the key
for audio hash "h1" is already present, yet `setTranscript("h1", "t2")`
still evicts the oldest entry (hash "h0") and shrinks the tier from 30 to 29
entries — refuting both "the tier's size is unchanged from before the second
set" and "eviction happens only when the key is new". -/
theorem setTranscript_overwrite_counterexample :
    (jsMapGet transcriptFull (generateKey md5Model "h1" "transcript")).isSome = true ∧
    transcriptFull.length = 30 ∧
    (setTranscript md5Model 0 transcriptFull "h1" "t2").length = 29 ∧
    (jsMapGet transcriptFull (generateKey md5Model "h0" "transcript")).isSome = true ∧
    jsMapGet (setTranscript md5Model 0 transcriptFull "h1" "t2")
      (generateKey md5Model "h0" "transcript") = none := by
  refine ⟨by decide, by decide, by decide, by decide, by decide⟩

/-- C2 as amended: `set(k, v2)` on a present key `k` overwrites it and a
subsequent `get(k)` returns `v2`; the tier size is unchanged when the tier is
below capacity, but when the tier is at capacity `set` evicts the
oldest-inserted entry even though `k` is already present, so overwriting a
non-oldest key at capacity shrinks the tier by one. -/
theorem tierSet_overwrite_amended {κ V : Type} [DecidableEq κ] (C ttl now : Nat)
    (m : List (κ × CacheEntry V)) (k : κ) (v : V)
    (hmem : (jsMapGet m k).isSome) (httl : 1 ≤ ttl) :
    tierGet (tierSet C ttl now m k v) now k = some v ∧
    (m.length < C → (tierSet C ttl now m k v).length = m.length) ∧
    (∀ p, C ≤ m.length → m.head? = some p → p.1 ≠ k →
      (tierSet C ttl now m k v).length + 1 = m.length) := by
  have hget : jsMapGet (tierSet C ttl now m k v) k =
      some { data := v, expires := now + ttl } := by
    simp only [tierSet]; exact jsMapGet_set_self _ _ _
  refine ⟨?_, ?_, ?_⟩
  · simp only [tierGet, hget]
    rw [if_pos (by omega)]
  · intro hlt
    have hnotfull : ¬ C ≤ m.length := by omega
    simp only [tierSet, hnotfull, if_false]
    exact jsMapSet_length_of_isSome m k _ hmem
  · intro p hfull hhead hne
    cases m with
    | nil => simp at hhead
    | cons q rest =>
      simp only [List.head?_cons, Option.some.injEq] at hhead
      obtain ⟨a, b⟩ := q
      have hne' : a ≠ k := by
        rw [← hhead] at hne
        exact hne
      have hk : (jsMapGet rest k).isSome := by
        simp only [jsMapGet] at hmem
        simpa [hne'] using hmem
      simp only [tierSet, hfull, if_true, List.head?_cons, jsMapDelete, if_pos rfl]
      rw [jsMapSet_length_of_isSome rest k _ hk]
      simp

/-- C2 amended witness: a two-entry tier below capacity, overwriting the
present key "b". -/
theorem tierSet_overwrite_amended_witness :
    (jsMapGet [("a", (⟨"x", 9⟩ : CacheEntry String)), ("b", ⟨"y", 9⟩)] "b").isSome = true ∧
    (1 : Nat) ≤ 300000 ∧
    tierGet (tierSet 100 300000 5 [("a", (⟨"x", 9⟩ : CacheEntry String)), ("b", ⟨"y", 9⟩)]
      "b" "z") 5 "b" = some "z" ∧
    (tierSet 100 300000 5 [("a", (⟨"x", 9⟩ : CacheEntry String)), ("b", ⟨"y", 9⟩)]
      "b" "z").length = 2 :=
  ⟨by decide, by norm_num,
   (tierSet_overwrite_amended 100 300000 5 _ "b" "z" (by decide) (by norm_num)).1,
   (tierSet_overwrite_amended 100 300000 5 _ "b" "z" (by decide) (by norm_num)).2.1
     (by decide)⟩

/-- C3 counterexample: the response-cache key digests the bare concatenation
`message ++ ":" ++ sessionId`, so the two distinct pairs `("a:b", "c")` and
`("a", "b:c")` share one concatenated spelling and map to the same cache
key; a response cached for one pair is served for the other. -/
theorem responseKey_concat_collision_counterexample :
    (("a:b", "c") ≠ (("a", "b:c") : String × String)) ∧
    responseKeyOf md5Model "a:b" "c" = responseKeyOf md5Model "a" "b:c" ∧
    getResponse md5Model (setResponse md5Model 0 [] "a:b" "c" "v") 1 "a" "b:c" = some "v" := by
  refine ⟨by decide, by decide, by decide⟩

/-- C3 as amended: the response-cache key is a deterministic function of the
concatenation `message ++ ":" ++ sessionId` — identical pairs therefore
always produce the identical key, but distinct pairs whose concatenations
coincide (possible whenever the message contains a colon) produce the same
key regardless of the digest used. -/
theorem responseKey_determined_by_concatenation (digest : String → String)
    (m₁ s₁ m₂ s₂ : String)
    (h : responseKeyInput m₁ s₁ = responseKeyInput m₂ s₂) :
    responseKeyOf digest m₁ s₁ = responseKeyOf digest m₂ s₂ := by
  unfold responseKeyOf generateKey
  rw [h]

/-- C3 amended witness: the colliding pairs `("a:b", "c")` and `("a", "b:c")`. -/
theorem responseKey_determined_by_concatenation_witness :
    responseKeyInput "a:b" "c" = responseKeyInput "a" "b:c" ∧
    responseKeyOf md5Model "a:b" "c" = responseKeyOf md5Model "a" "b:c" :=
  ⟨by decide, responseKey_determined_by_concatenation md5Model "a:b" "c" "a" "b:c" (by decide)⟩

/-- The keys of a list of freshly built cache entries are the original keys. -/
theorem map_entry_keys {κ V : Type} (l : List (κ × V)) (ttl now : Nat) :
    (l.map fun kv =>
        (kv.1, ({ data := kv.2, expires := now + ttl } : CacheEntry V))).map Prod.fst =
      l.map Prod.fst := by
  induction l with
  | nil => simp
  | cons p r ih => simp [ih]

/-- Filling a tier with pairwise-fresh keys while it stays within capacity
appends the entries in insertion order. -/
theorem foldl_tierSet_fill {κ V : Type} [DecidableEq κ] (C ttl now : Nat) :
    ∀ (kvs : List (κ × V)) (m : List (κ × CacheEntry V)),
      m.length + kvs.length ≤ C →
      (m.map Prod.fst ++ kvs.map Prod.fst).Nodup →
      kvs.foldl (fun acc kv => tierSet C ttl now acc kv.1 kv.2) m =
        m ++ kvs.map fun kv =>
          (kv.1, ({ data := kv.2, expires := now + ttl } : CacheEntry V)) := by
  intro kvs
  induction kvs with
  | nil => intro m _ _; simp
  | cons kv rest ih =>
    obtain ⟨k, v⟩ := kv
    intro m hlen hnd
    have hnotfull : ¬ C ≤ m.length := by
      simp only [List.length_cons] at hlen; omega
    have hkm : k ∉ m.map Prod.fst := by
      rw [List.nodup_append] at hnd
      exact fun hmem => hnd.2.2 hmem (by simp)
    have hstep : tierSet C ttl now m k v =
        m ++ [(k, { data := v, expires := now + ttl })] := by
      simp only [tierSet, hnotfull, if_false]
      exact jsMapSet_of_get_none m k _ ((jsMapGet_eq_none_iff m k).mpr hkm)
    have ih' := ih (m ++ [(k, ({ data := v, expires := now + ttl } : CacheEntry V))])
      (by simp only [List.length_append, List.length_cons, List.length_nil] at hlen ⊢; omega)
      (by simpa [List.append_assoc] using hnd)
    simp only [List.foldl_cons, hstep, ih']
    simp

/-- C6. For every tier with capacity `C` (response 100, language 50,
transcript 30) and TTL `ttl`, inserting `C + 1` pairwise-distinct keys in
order into the empty tier evicts exactly the oldest-inserted key: a lookup
of the first key returns absent while a lookup of the last key returns its
stored value. -/
theorem tier_eviction_order {κ V : Type} [DecidableEq κ] (C ttl now : Nat)
    (kvs front : List (κ × V)) (k₁ kl : κ) (v₁ vl : V)
    (hsplit : kvs = front ++ [(kl, vl)])
    (hhead : front.head? = some (k₁, v₁))
    (hlen : front.length = C)
    (hnd : (kvs.map Prod.fst).Nodup)
    (httl : 1 ≤ ttl) :
    tierGet (kvs.foldl (fun m kv => tierSet C ttl now m kv.1 kv.2) []) now k₁ = none ∧
    tierGet (kvs.foldl (fun m kv => tierSet C ttl now m kv.1 kv.2) []) now kl = some vl := by
  subst hsplit
  rw [List.foldl_append]
  have hndf : (front.map Prod.fst).Nodup := by
    rw [List.map_append, List.nodup_append] at hnd
    exact hnd.1
  have hkl : kl ∉ front.map Prod.fst := by
    rw [List.map_append, List.nodup_append] at hnd
    exact fun hmem => hnd.2.2 hmem (by simp)
  have hfill : front.foldl (fun m kv => tierSet C ttl now m kv.1 kv.2) [] =
      front.map fun kv =>
        (kv.1, ({ data := kv.2, expires := now + ttl } : CacheEntry V)) := by
    have := foldl_tierSet_fill C ttl now front [] (by simp [hlen]) (by simpa using hndf)
    simpa using this
  rw [hfill]
  cases front with
  | nil => simp at hhead
  | cons q mid =>
    obtain ⟨a, b⟩ := q
    simp only [List.head?_cons, Option.some.injEq] at hhead
    have ha : a = k₁ := congrArg Prod.fst hhead
    subst ha
    have hamid : a ∉ mid.map Prod.fst := by
      simp only [List.map_cons, List.nodup_cons] at hndf
      exact hndf.1
    have hklmid : kl ∉ mid.map Prod.fst := by
      intro hmem
      exact hkl (by simp [hmem])
    have hkla : kl ≠ a := by
      intro h
      exact hkl (by simp [h])
    have hmidkeys : (mid.map fun kv =>
        (kv.1, ({ data := kv.2, expires := now + ttl } : CacheEntry V))).map Prod.fst =
        mid.map Prod.fst := map_entry_keys mid ttl now
    have hgetmid : jsMapGet (mid.map fun kv =>
        (kv.1, ({ data := kv.2, expires := now + ttl } : CacheEntry V))) kl = none := by
      rw [jsMapGet_eq_none_iff, hmidkeys]
      exact hklmid
    have hlen' : mid.length + 1 = C := by
      simpa using hlen
    have hrun : List.foldl (fun m kv => tierSet C ttl now m kv.1 kv.2)
        (((a, b) :: mid).map fun kv =>
          (kv.1, ({ data := kv.2, expires := now + ttl } : CacheEntry V))) [(kl, vl)] =
        (mid.map fun kv =>
          (kv.1, ({ data := kv.2, expires := now + ttl } : CacheEntry V))) ++
          [(kl, { data := vl, expires := now + ttl })] := by
      have hfull : C ≤ ((a, ({ data := b, expires := now + ttl } : CacheEntry V)) ::
          (mid.map fun kv =>
            (kv.1, ({ data := kv.2, expires := now + ttl } : CacheEntry V)))).length := by
        simp only [List.length_cons, List.length_map]
        omega
      simp only [List.foldl_cons, List.foldl_nil, List.map_cons]
      rw [tierSet_full_cons C ttl now _ _ kl vl hfull]
      exact jsMapSet_of_get_none _ kl _ hgetmid
    rw [hrun]
    constructor
    · have hnone : jsMapGet ((mid.map fun kv =>
          (kv.1, ({ data := kv.2, expires := now + ttl } : CacheEntry V))) ++
          [(kl, { data := vl, expires := now + ttl })]) a = none := by
        rw [jsMapGet_eq_none_iff, List.map_append, hmidkeys]
        simp only [List.map_cons, List.map_nil, List.mem_append, List.mem_singleton, not_or]
        exact ⟨hamid, fun h => hkla h.symm⟩
      simp [tierGet, hnone]
    · have hsome : jsMapGet ((mid.map fun kv =>
          (kv.1, ({ data := kv.2, expires := now + ttl } : CacheEntry V))) ++
          [(kl, { data := vl, expires := now + ttl })]) kl =
          some { data := vl, expires := now + ttl } := by
        rw [jsMapGet_append_right _ _ kl (by rw [hmidkeys]; exact hklmid)]
        simp [jsMapGet]
      simp only [tierGet, hsome]
      rw [if_pos (by omega)]

/-! ## Pool lemmas -/

theorem acquireFromList_eq_none_iff (now : Nat) (l : List PoolItem) :
    acquireFromList now l = none ↔ ∀ y ∈ l, y.inUse = true := by
  induction l with
  | nil => simp [acquireFromList]
  | cons it rest ih =>
    by_cases hu : it.inUse = true
    · cases hrec : acquireFromList now rest with
      | none =>
        simp only [acquireFromList, hu, if_true, hrec]
        constructor
        · intro _ y hy
          rcases List.mem_cons.mp hy with h | h
          · rw [h]; exact hu
          · exact ih.mp hrec y h
        · intro _; trivial
      | some p =>
        obtain ⟨item, rest'⟩ := p
        simp only [acquireFromList, hu, if_true, hrec]
        constructor
        · intro h; cases h
        · intro hall
          have hnone : acquireFromList now rest = none :=
            ih.mpr fun y hy => hall y (List.mem_cons_of_mem _ hy)
          rw [hrec] at hnone; cases hnone
    · have huse : it.inUse = false := by
        cases hb : it.inUse
        · rfl
        · exact absurd hb hu
      constructor
      · intro h
        simp [acquireFromList, huse] at h
      · intro hall
        have := hall it (List.mem_cons_self _ _)
        rw [huse] at this; cases this

/-- Structure of a successful `find`-and-mark acquisition: the pool list
keeps its length, its handle identities and its `temporary` flags; the
returned slot is the first available one, marked in use with `lastUsed`
updated, and sits in the updated list. -/
theorem acquireFromList_some_shape (now : Nat) :
    ∀ (l l' : List PoolItem) (item : PoolItem),
      acquireFromList now l = some (item, l') →
      l'.length = l.length ∧
      l'.map PoolItem.config = l.map PoolItem.config ∧
      l'.map PoolItem.temporary = l.map PoolItem.temporary ∧
      ∃ x ∈ l, x.inUse = false ∧
        item = { x with inUse := true, lastUsed := now } ∧ item ∈ l' := by
  intro l
  induction l with
  | nil => intro l' item h; simp [acquireFromList] at h
  | cons it rest ih =>
    intro l' item h
    by_cases hu : it.inUse = true
    · simp only [acquireFromList, hu, if_true] at h
      cases hrec : acquireFromList now rest with
      | none => rw [hrec] at h; cases h
      | some p =>
        obtain ⟨item0, rest'⟩ := p
        rw [hrec] at h
        simp only [Option.some.injEq, Prod.mk.injEq] at h
        obtain ⟨hitem, hl'⟩ := h
        obtain ⟨hlen, hconf, htemp, x, hxmem, hxuse, hxitem, hmem⟩ := ih rest' item0 hrec
        subst hitem
        refine ⟨?_, ?_, ?_, x, List.mem_cons_of_mem _ hxmem, hxuse, hxitem, ?_⟩
        · rw [← hl']; simp [hlen]
        · rw [← hl']; simp [hconf]
        · rw [← hl']; simp [htemp]
        · rw [← hl']; exact List.mem_cons_of_mem _ hmem
    · have huse : it.inUse = false := by
        cases hb : it.inUse
        · rfl
        · exact absurd hb hu
      simp only [acquireFromList, huse, Bool.false_eq_true, if_false] at h
      simp only [Option.some.injEq, Prod.mk.injEq] at h
      obtain ⟨hitem, hl'⟩ := h
      refine ⟨?_, ?_, ?_, it, List.mem_cons_self it rest, huse, hitem.symm, ?_⟩
      · rw [← hl']; simp
      · rw [← hl']; simp [← hitem]
      · rw [← hl']; simp [← hitem]
      · rw [← hl', ← hitem]; exact List.mem_cons_self _ _

/-- When some slot carrying handle `c` is available and every slot carrying a
different handle is in use, acquisition returns the slot with handle `c`. -/
theorem acquireFromList_unique_avail (now c : Nat) :
    ∀ (l : List PoolItem),
      (∃ y ∈ l, y.config = c ∧ y.inUse = false) →
      (∀ y ∈ l, y.config ≠ c → y.inUse = true) →
      ∃ item l', acquireFromList now l = some (item, l') ∧ item.config = c := by
  intro l
  induction l with
  | nil => rintro ⟨y, hy, -⟩ _; cases hy
  | cons it rest ih =>
    rintro ⟨y, hy, hyc, hyu⟩ hoth
    by_cases hu : it.inUse = true
    · have hyrest : y ∈ rest := by
        rcases List.mem_cons.mp hy with h | h
        · subst h; rw [hu] at hyu; cases hyu
        · exact h
      obtain ⟨item, l', hrec, hic⟩ := ih ⟨y, hyrest, hyc, hyu⟩
        (fun z hz hzc => hoth z (List.mem_cons_of_mem _ hz) hzc)
      exact ⟨item, it :: l', by simp only [acquireFromList, hu, if_true, hrec], hic⟩
    · have hitc : it.config = c := by
        by_contra hne
        exact hu (hoth it (List.mem_cons_self _ _) hne)
      have huse : it.inUse = false := by
        cases hb : it.inUse
        · rfl
        · exact absurd hb hu
      exact ⟨{ it with inUse := true, lastUsed := now },
        { it with inUse := true, lastUsed := now } :: rest,
        by simp [acquireFromList, huse], hitc⟩

/-- C4. `getConfigFromPool` (the pool's `acquire`) never blocks and never
fails: it is a total function that, when some slot is available, returns that
(non-temporary) slot marked in use with `lastUsedAt` updated and increments
the `reused` counter, and otherwise returns a brand-new slot marked
`temporary` and in use, incrementing the `created` counter and leaving the
pool list untouched. -/
theorem getConfigFromPool_never_fails (st : PoolState) (now : Nat)
    (hnt : ∀ x ∈ st.configPool, x.temporary = false) :
    ((∃ x ∈ st.configPool, x.inUse = false) →
      ∃ x ∈ st.configPool, x.inUse = false ∧
        (getConfigFromPool now st).1 = { x with inUse := true, lastUsed := now } ∧
        (getConfigFromPool now st).1.temporary = false ∧
        (getConfigFromPool now st).1 ∈ (getConfigFromPool now st).2.configPool ∧
        (getConfigFromPool now st).2.poolStats.reused = st.poolStats.reused + 1 ∧
        (getConfigFromPool now st).2.poolStats.created = st.poolStats.created) ∧
    ((∀ x ∈ st.configPool, x.inUse = true) →
      (getConfigFromPool now st).1.temporary = true ∧
      (getConfigFromPool now st).1.inUse = true ∧
      (getConfigFromPool now st).1.created = now ∧
      (getConfigFromPool now st).1.lastUsed = now ∧
      (getConfigFromPool now st).2.configPool = st.configPool ∧
      (getConfigFromPool now st).2.poolStats.created = st.poolStats.created + 1 ∧
      (getConfigFromPool now st).2.poolStats.reused = st.poolStats.reused) := by
  constructor
  · rintro ⟨x0, hx0, hx0u⟩
    cases hrec : acquireFromList now st.configPool with
    | none =>
      have := (acquireFromList_eq_none_iff now st.configPool).mp hrec x0 hx0
      rw [this] at hx0u; cases hx0u
    | some p =>
      obtain ⟨item, pool'⟩ := p
      obtain ⟨hlen, hconf, htemp, x, hxmem, hxuse, hxitem, hmem⟩ :=
        acquireFromList_some_shape now st.configPool pool' item hrec
      have hres : getConfigFromPool now st =
          (item,
            { st with
                configPool := pool'
                poolStats := { st.poolStats with reused := st.poolStats.reused + 1 } }) := by
        simp only [getConfigFromPool, hrec]
      refine ⟨x, hxmem, hxuse, ?_, ?_, ?_, ?_, ?_⟩ <;> rw [hres]
      · exact hxitem
      · rw [hxitem]; exact hnt x hxmem
      · exact hmem
  · intro hall
    have hrec : acquireFromList now st.configPool = none :=
      (acquireFromList_eq_none_iff now st.configPool).mpr hall
    simp [getConfigFromPool, hrec]

/-- C4 witness: the just-initialized pool (five available slots) for the
reuse branch, and a single-slot fully-busy pool for the overflow branch. -/
theorem getConfigFromPool_never_fails_witness :
    (∀ x ∈ (initializeConfigPool 0).configPool, x.temporary = false) ∧
    (∃ x ∈ (initializeConfigPool 0).configPool, x.inUse = false) ∧
    (∃ x ∈ (initializeConfigPool 0).configPool, x.inUse = false ∧
      (getConfigFromPool 7 (initializeConfigPool 0)).1 =
        { x with inUse := true, lastUsed := 7 } ∧
      (getConfigFromPool 7 (initializeConfigPool 0)).1.temporary = false ∧
      (getConfigFromPool 7 (initializeConfigPool 0)).1 ∈
        (getConfigFromPool 7 (initializeConfigPool 0)).2.configPool ∧
      (getConfigFromPool 7 (initializeConfigPool 0)).2.poolStats.reused =
        (initializeConfigPool 0).poolStats.reused + 1 ∧
      (getConfigFromPool 7 (initializeConfigPool 0)).2.poolStats.created =
        (initializeConfigPool 0).poolStats.created) ∧
    ((getConfigFromPool 9 (PoolState.mk [PoolItem.mk 0 true false 0 0]
        (PoolStats.mk 1 0 0) 1)).1.temporary = true ∧
      (getConfigFromPool 9 (PoolState.mk [PoolItem.mk 0 true false 0 0]
        (PoolStats.mk 1 0 0) 1)).2.poolStats.created = 1 + 1) :=
  ⟨by decide, by decide,
   (getConfigFromPool_never_fails (initializeConfigPool 0) 7 (by decide)).1 (by decide),
   ⟨((getConfigFromPool_never_fails (PoolState.mk [PoolItem.mk 0 true false 0 0]
       (PoolStats.mk 1 0 0) 1) 9 (by decide)).2 (by decide)).1,
    ((getConfigFromPool_never_fails (PoolState.mk [PoolItem.mk 0 true false 0 0]
       (PoolStats.mk 1 0 0) 1) 9 (by decide)).2 (by decide)).2.2.2.2.2.1⟩⟩

/-- The per-index behaviour of a maintenance sweep: the list keeps its
length, the fresh-handle supply only grows, every stale idle slot gets a
fresh handle (at least the sweep's starting supply, below its final supply)
with `created` and `lastUsed` reset and `inUse`/`temporary` untouched, and
every other slot is left exactly as it was. -/
theorem maintainSlots_spec (now maxAge : Nat) :
    ∀ (l : List PoolItem) (next : Nat),
      (maintainSlots now maxAge next l).1.length = l.length ∧
      next ≤ (maintainSlots now maxAge next l).2 ∧
      ∀ (i : Nat) (x : PoolItem), l[i]? = some x →
        ∃ x', (maintainSlots now maxAge next l).1[i]? = some x' ∧
          ((x.inUse = false ∧ maxAge < now - x.lastUsed) →
            x'.inUse = x.inUse ∧ x'.temporary = x.temporary ∧ x'.created = now ∧
            x'.lastUsed = now ∧ next ≤ x'.config ∧
            x'.config < (maintainSlots now maxAge next l).2) ∧
          (¬(x.inUse = false ∧ maxAge < now - x.lastUsed) → x' = x) := by
  intro l
  induction l with
  | nil =>
    intro next
    refine ⟨rfl, Nat.le_refl _, ?_⟩
    intro i x h
    simp at h
  | cons it rest ih =>
    intro next
    by_cases hc : it.inUse = false ∧ maxAge < now - it.lastUsed
    · have hb : (!it.inUse && decide (maxAge < now - it.lastUsed)) = true := by
        simp [hc.1, hc.2]
      obtain ⟨ihlen, ihnext, ihidx⟩ := ih (next + 1)
      simp only [maintainSlots, hb, if_true]
      refine ⟨by simpa using ihlen, by omega, ?_⟩
      intro i x h
      cases i with
      | zero =>
        simp only [List.getElem?_cons_zero, Option.some.injEq] at h
        refine ⟨{ it with config := next, created := now, lastUsed := now },
          by simp, ?_, ?_⟩
        · intro _
          rw [← h]
          refine ⟨rfl, rfl, rfl, rfl, Nat.le_refl _, ?_⟩
          show next < (maintainSlots now maxAge (next + 1) rest).2
          omega
        · intro hnc
          rw [← h] at hnc
          exact absurd hc hnc
      | succ i =>
        simp only [List.getElem?_cons_succ] at h
        obtain ⟨x', hx', href, hkeep⟩ := ihidx i x h
        refine ⟨x', by simpa using hx', ?_, hkeep⟩
        intro hcx
        obtain ⟨h1, h2, h3, h4, h5, h6⟩ := href hcx
        exact ⟨h1, h2, h3, h4, by omega, h6⟩
    · have hb : (!it.inUse && decide (maxAge < now - it.lastUsed)) = false := by
        cases hx : (!it.inUse && decide (maxAge < now - it.lastUsed)) with
        | false => rfl
        | true =>
          exfalso
          apply hc
          simp only [Bool.and_eq_true, Bool.not_eq_true', decide_eq_true_eq] at hx
          exact hx
      obtain ⟨ihlen, ihnext, ihidx⟩ := ih next
      simp only [maintainSlots, hb, Bool.false_eq_true, if_false]
      refine ⟨by simpa using ihlen, ihnext, ?_⟩
      intro i x h
      cases i with
      | zero =>
        simp only [List.getElem?_cons_zero, Option.some.injEq] at h
        refine ⟨it, by simp, ?_, fun _ => h⟩
        intro hcx
        rw [← h] at hcx
        exact absurd hcx hc
      | succ i =>
        simp only [List.getElem?_cons_succ] at h
        obtain ⟨x', hx', href, hkeep⟩ := ihidx i x h
        exact ⟨x', by simpa using hx', href, hkeep⟩

/-- A sweep in which no refresh fails behaves exactly like the sweep of the
source's `performPoolMaintenance` and reports completion. -/
theorem maintainSlotsF_no_fail (now maxAge : Nat) :
    ∀ (l : List PoolItem) (next : Nat),
      maintainSlotsF (fun _ => false) now maxAge next l =
        ((maintainSlots now maxAge next l).1, (maintainSlots now maxAge next l).2, true) := by
  intro l
  induction l with
  | nil => intro next; rfl
  | cons it rest ih =>
    intro next
    cases hb : (!it.inUse && decide (maxAge < now - it.lastUsed)) with
    | true => simp [maintainSlotsF, maintainSlots, hb, ih]
    | false => simp [maintainSlotsF, maintainSlots, hb, ih]

/-- C8. With every pool handle below the fresh-handle supply (true in every
reachable state), a maintenance sweep leaves the counters alone, keeps the
slot list's length, and refreshes exactly the non-temporary slots that are
idle (`inUse = false`) and stale (`lastUsed` more than 5 minutes old): such a
slot keeps its `inUse` and `temporary` flags, gets `created` and `lastUsed`
reset to `now`, and has its connection handle replaced by a genuinely new
one; every in-use slot and every fresh slot is left completely unchanged. -/
theorem performPoolMaintenance_frame (st : PoolState) (now : Nat)
    (hb : ∀ x ∈ st.configPool, x.config < st.nextConfig)
    (hnt : ∀ x ∈ st.configPool, x.temporary = false) :
    (performPoolMaintenance now st).poolStats = st.poolStats ∧
    (performPoolMaintenance now st).configPool.length = st.configPool.length ∧
    ∀ (i : Nat) (x : PoolItem), st.configPool[i]? = some x →
      ∃ x', (performPoolMaintenance now st).configPool[i]? = some x' ∧
        ((x.temporary = false ∧ x.inUse = false ∧ poolMaxAge < now - x.lastUsed) →
          x'.inUse = x.inUse ∧ x'.temporary = x.temporary ∧ x'.created = now ∧
          x'.lastUsed = now ∧ x'.config ≠ x.config) ∧
        (¬(x.inUse = false ∧ poolMaxAge < now - x.lastUsed) → x' = x) := by
  obtain ⟨hlen, hnext, hidx⟩ := maintainSlots_spec now poolMaxAge st.configPool st.nextConfig
  refine ⟨rfl, hlen, ?_⟩
  intro i x h
  obtain ⟨x', hx', href, hkeep⟩ := hidx i x h
  have hxmem : x ∈ st.configPool := by
    have := List.getElem?_eq_some_iff.mp h
    obtain ⟨hi, hget⟩ := this
    exact hget ▸ List.getElem_mem hi
  refine ⟨x', hx', ?_, hkeep⟩
  rintro ⟨-, hidle, hstale⟩
  obtain ⟨h1, h2, h3, h4, h5, -⟩ := href ⟨hidle, hstale⟩
  refine ⟨h1, h2, h3, h4, ?_⟩
  have hxb : x.config < st.nextConfig := hb x hxmem
  omega

/-- C8 witness: a two-slot pool (handles 0 and 1, supply at 2) at time
400000 ms: slot 0 is idle and stale and gets refreshed in place; slot 1 is
in use and is untouched. -/
theorem performPoolMaintenance_frame_witness :
    (∀ x ∈ (PoolState.mk [PoolItem.mk 0 false false 0 0, PoolItem.mk 1 true false 0 0]
        (PoolStats.mk 2 0 0) 2).configPool, x.config < 2) ∧
    (performPoolMaintenance 400000 (PoolState.mk
        [PoolItem.mk 0 false false 0 0, PoolItem.mk 1 true false 0 0]
        (PoolStats.mk 2 0 0) 2)).poolStats = PoolStats.mk 2 0 0 ∧
    (∃ x', (performPoolMaintenance 400000 (PoolState.mk
        [PoolItem.mk 0 false false 0 0, PoolItem.mk 1 true false 0 0]
        (PoolStats.mk 2 0 0) 2)).configPool[0]? = some x' ∧
      ((PoolItem.mk 0 false false 0 0).temporary = false ∧
        (PoolItem.mk 0 false false 0 0).inUse = false ∧
        poolMaxAge < 400000 - (PoolItem.mk 0 false false 0 0).lastUsed →
        x'.inUse = false ∧ x'.temporary = false ∧ x'.created = 400000 ∧
        x'.lastUsed = 400000 ∧ x'.config ≠ 0) ∧
      (¬((PoolItem.mk 0 false false 0 0).inUse = false ∧
        poolMaxAge < 400000 - (PoolItem.mk 0 false false 0 0).lastUsed) →
        x' = PoolItem.mk 0 false false 0 0)) :=
  ⟨by decide,
   (performPoolMaintenance_frame (PoolState.mk
      [PoolItem.mk 0 false false 0 0, PoolItem.mk 1 true false 0 0]
      (PoolStats.mk 2 0 0) 2) 400000 (by decide) (by decide)).1,
   by
    obtain ⟨x', hx', href, hkeep⟩ := (performPoolMaintenance_frame (PoolState.mk
      [PoolItem.mk 0 false false 0 0, PoolItem.mk 1 true false 0 0]
      (PoolStats.mk 2 0 0) 2) 400000 (by decide) (by decide)).2.2 0
      (PoolItem.mk 0 false false 0 0) (by decide)
    exact ⟨x', hx', fun h => by
      obtain ⟨h1, h2, h3, h4, h5⟩ := href h
      exact ⟨h1, h2, h3, h4, h5⟩, hkeep⟩⟩

/-- C9. At the failing input below — a two-slot pool, both slots idle and
stale, where refreshing the first slot's handle throws — the exception
propagates out of `forEach`: the sweep does not complete and the second
stale slot is left unrefreshed (a completed sweep would have reset its
`lastUsed` to the sweep time and given it a fresh handle), contradicting
the specified per-item failure isolation. -/
theorem performPoolMaintenance_abort_on_failure :
    (performPoolMaintenanceF (fun c => c == 0) 400000
      (PoolState.mk [PoolItem.mk 0 false false 0 0, PoolItem.mk 1 false false 0 0]
        (PoolStats.mk 2 0 0) 2)).2 = false ∧
    (performPoolMaintenanceF (fun c => c == 0) 400000
      (PoolState.mk [PoolItem.mk 0 false false 0 0, PoolItem.mk 1 false false 0 0]
        (PoolStats.mk 2 0 0) 2)).1.configPool[1]? =
      some (PoolItem.mk 1 false false 0 0) ∧
    (PoolItem.mk 1 false false 0 0).inUse = false ∧
    poolMaxAge < 400000 - (PoolItem.mk 1 false false 0 0).lastUsed ∧
    (performPoolMaintenance 400000
      (PoolState.mk [PoolItem.mk 0 false false 0 0, PoolItem.mk 1 false false 0 0]
        (PoolStats.mk 2 0 0) 2)).configPool[1]? =
      some (PoolItem.mk 3 false false 400000 400000) := by
  refine ⟨by decide, by decide, by decide, by decide, by decide⟩

/-- Every slot in a swept pool list descends from a slot of the input list:
it keeps that slot's `temporary` flag, and it is either the very slot
(untouched) or a refreshed copy whose handle was drawn from the sweep's
fresh supply. -/
theorem maintainSlots_mem (now maxAge : Nat) (l : List PoolItem) (next : Nat)
    (x' : PoolItem) (hx' : x' ∈ (maintainSlots now maxAge next l).1) :
    ∃ x ∈ l, x'.temporary = x.temporary ∧
      (x' = x ∨ (next ≤ x'.config ∧ x'.config < (maintainSlots now maxAge next l).2)) := by
  obtain ⟨hlen, hnext, hidx⟩ := maintainSlots_spec now maxAge l next
  obtain ⟨i, hi⟩ := List.mem_iff_getElem?.mp hx'
  have hilt : i < l.length := by
    have := (List.getElem?_eq_some_iff.mp hi).1
    omega
  have hli : l[i]? = some (l.get ⟨i, hilt⟩) := by
    rw [List.getElem?_eq_getElem hilt]
    rfl
  obtain ⟨x'', hx'', href, hkeep⟩ := hidx i (l.get ⟨i, hilt⟩) hli
  have hxx : x'' = x' := by
    rw [hi] at hx''
    exact (Option.some.injEq _ _ ▸ hx'').symm
  subst hxx
  refine ⟨l.get ⟨i, hilt⟩, List.get_mem l i hilt, ?_⟩
  by_cases hc : (l.get ⟨i, hilt⟩).inUse = false ∧ maxAge < now - (l.get ⟨i, hilt⟩).lastUsed
  · obtain ⟨-, h2, -, -, h5, h6⟩ := href hc
    exact ⟨h2, Or.inr ⟨h5, h6⟩⟩
  · rw [hkeep hc]
    exact ⟨rfl, Or.inl rfl⟩

/-- The handle identities and `temporary` flags of a pool list are unchanged
by a release-update of the slot carrying handle `c`. -/
theorem releaseMap_shape (c now : Nat) (l : List PoolItem) :
    ((l.map fun it =>
        if it.config = c then { it with inUse := false, lastUsed := now } else it).map
      PoolItem.config = l.map PoolItem.config) ∧
    ((l.map fun it =>
        if it.config = c then { it with inUse := false, lastUsed := now } else it).map
      PoolItem.temporary = l.map PoolItem.temporary) := by
  induction l with
  | nil => exact ⟨rfl, rfl⟩
  | cons it rest ih =>
    by_cases h : it.config = c <;> simp [h, ih.1, ih.2]

/-- One protocol step preserves the pool list's length, never shrinks the
fresh-handle supply, keeps every pool slot non-temporary, and preserves
`PoolAvoid` for every handle. -/
theorem poolStep_preserves {st st' : PoolState} (h : PoolStep st st') :
    st'.configPool.length = st.configPool.length ∧
    st.nextConfig ≤ st'.nextConfig ∧
    ((∀ x ∈ st.configPool, x.temporary = false) →
      ∀ x ∈ st'.configPool, x.temporary = false) ∧
    (∀ c : Nat, PoolAvoid c st → PoolAvoid c st') := by
  cases h with
  | acquire now st =>
    cases hrec : acquireFromList now st.configPool with
    | none =>
      have hres : (getConfigFromPool now st).2 =
          { st with
              poolStats := { st.poolStats with created := st.poolStats.created + 1 }
              nextConfig := st.nextConfig + 1 } := by
        simp only [getConfigFromPool, hrec]
      rw [hres]
      refine ⟨rfl, Nat.le_succ _, fun hnt => hnt, ?_⟩
      rintro c ⟨hb, hc, hne⟩
      exact ⟨fun x hx => Nat.lt_succ_of_lt (hb x hx), Nat.lt_succ_of_lt hc, hne⟩
    | some p =>
      obtain ⟨item, pool'⟩ := p
      obtain ⟨hlen, hconf, htemp, -⟩ :=
        acquireFromList_some_shape now st.configPool pool' item hrec
      have hres : (getConfigFromPool now st).2 =
          { st with
              configPool := pool'
              poolStats := { st.poolStats with reused := st.poolStats.reused + 1 } } := by
        simp only [getConfigFromPool, hrec]
      rw [hres]
      refine ⟨hlen, Nat.le_refl _, ?_, ?_⟩
      · intro hnt x hx
        have hmem : x.temporary ∈ pool'.map PoolItem.temporary := List.mem_map_of_mem _ hx
        rw [htemp] at hmem
        obtain ⟨y, hy, hyt⟩ := List.mem_map.mp hmem
        rw [← hyt]
        exact hnt y hy
      · rintro c ⟨hb, hc, hne⟩
        refine ⟨?_, hc, ?_⟩
        · intro x hx
          have hmem : x.config ∈ pool'.map PoolItem.config := List.mem_map_of_mem _ hx
          rw [hconf] at hmem
          obtain ⟨y, hy, hyc⟩ := List.mem_map.mp hmem
          rw [← hyc]
          exact hb y hy
        · intro x hx
          have hmem : x.config ∈ pool'.map PoolItem.config := List.mem_map_of_mem _ hx
          rw [hconf] at hmem
          obtain ⟨y, hy, hyc⟩ := List.mem_map.mp hmem
          rw [← hyc]
          exact hne y hy
  | release now item st =>
    by_cases ht : item.temporary = true
    · have hres : returnConfigToPool now st item =
          { st with
              poolStats :=
                { st.poolStats with destroyed := st.poolStats.destroyed + 1 } } := by
        simp [returnConfigToPool, ht]
      rw [hres]
      exact ⟨rfl, Nat.le_refl _, fun hnt => hnt, fun c hA => hA⟩
    · have htf : item.temporary = false := by
        cases hb : item.temporary
        · rfl
        · exact absurd hb ht
      have hres : returnConfigToPool now st item =
          { st with
              configPool := st.configPool.map fun it =>
                if it.config = item.config then
                  { it with inUse := false, lastUsed := now }
                else it } := by
        simp [returnConfigToPool, htf]
      rw [hres]
      obtain ⟨hconf, htemp⟩ := releaseMap_shape item.config now st.configPool
      refine ⟨by simp, Nat.le_refl _, ?_, ?_⟩
      · intro hnt x hx
        have hmem : x.temporary ∈ (st.configPool.map fun it =>
            if it.config = item.config then { it with inUse := false, lastUsed := now }
            else it).map PoolItem.temporary := List.mem_map_of_mem _ hx
        rw [htemp] at hmem
        obtain ⟨y, hy, hyt⟩ := List.mem_map.mp hmem
        rw [← hyt]
        exact hnt y hy
      · rintro c ⟨hb, hc, hne⟩
        refine ⟨?_, hc, ?_⟩
        · intro x hx
          have hmem : x.config ∈ (st.configPool.map fun it =>
              if it.config = item.config then { it with inUse := false, lastUsed := now }
              else it).map PoolItem.config := List.mem_map_of_mem _ hx
          rw [hconf] at hmem
          obtain ⟨y, hy, hyc⟩ := List.mem_map.mp hmem
          rw [← hyc]
          exact hb y hy
        · intro x hx
          have hmem : x.config ∈ (st.configPool.map fun it =>
              if it.config = item.config then { it with inUse := false, lastUsed := now }
              else it).map PoolItem.config := List.mem_map_of_mem _ hx
          rw [hconf] at hmem
          obtain ⟨y, hy, hyc⟩ := List.mem_map.mp hmem
          rw [← hyc]
          exact hne y hy
  | maintain now st =>
    obtain ⟨hlen, hnext, -⟩ := maintainSlots_spec now poolMaxAge st.configPool st.nextConfig
    refine ⟨hlen, hnext, ?_, ?_⟩
    · intro hnt x hx
      obtain ⟨y, hy, hyt, -⟩ :=
        maintainSlots_mem now poolMaxAge st.configPool st.nextConfig x hx
      rw [hyt]
      exact hnt y hy
    · rintro c ⟨hb, hc, hne⟩
      have heqn : (performPoolMaintenance now st).nextConfig =
          (maintainSlots now poolMaxAge st.nextConfig st.configPool).2 := rfl
      refine ⟨?_, by omega, ?_⟩
      · intro x hx
        obtain ⟨y, hy, -, hcase⟩ :=
          maintainSlots_mem now poolMaxAge st.configPool st.nextConfig x hx
        rcases hcase with h | ⟨-, h2⟩
        · rw [h, heqn]
          have := hb y hy
          omega
        · rw [heqn]
          exact h2
      · intro x hx
        obtain ⟨y, hy, -, hcase⟩ :=
          maintainSlots_mem now poolMaxAge st.configPool st.nextConfig x hx
        rcases hcase with h | ⟨h1, -⟩
        · rw [h]
          exact hne y hy
        · omega

/-- The step invariants hold along every finite sequence of pool operations. -/
theorem poolReachable_preserves {st st' : PoolState} (h : PoolReachable st st') :
    st'.configPool.length = st.configPool.length ∧
    st.nextConfig ≤ st'.nextConfig ∧
    ((∀ x ∈ st.configPool, x.temporary = false) →
      ∀ x ∈ st'.configPool, x.temporary = false) ∧
    (∀ c : Nat, PoolAvoid c st → PoolAvoid c st') := by
  induction h with
  | refl => exact ⟨rfl, Nat.le_refl _, fun h => h, fun c h => h⟩
  | tail hr hs ih =>
    obtain ⟨l1, n1, t1, a1⟩ := ih
    obtain ⟨l2, n2, t2, a2⟩ := poolStep_preserves hs
    exact ⟨l2.trans l1, n1.trans n2, fun h => t2 (t1 h), fun c h => a2 c (a1 c h)⟩

/-- Acquisition never hands out a handle that the pool avoids: an available
pool slot's handle differs from `c` by `PoolAvoid`, and a freshly built
temporary slot's handle is the supply head, above `c`. -/
theorem getConfigFromPool_config_ne (st : PoolState) (now c : Nat) (ha : PoolAvoid c st) :
    ((getConfigFromPool now st).1).config ≠ c := by
  cases hrec : acquireFromList now st.configPool with
  | none =>
    have hres : (getConfigFromPool now st).1 =
        { config := st.nextConfig, inUse := true, temporary := true,
          created := now, lastUsed := now } := by
      simp only [getConfigFromPool, hrec]
    rw [hres]
    show st.nextConfig ≠ c
    have := ha.2.1
    omega
  | some p =>
    obtain ⟨item, pool'⟩ := p
    obtain ⟨-, -, -, x, hxmem, -, hxitem, -⟩ :=
      acquireFromList_some_shape now st.configPool pool' item hrec
    have hres : (getConfigFromPool now st).1 = item := by
      simp only [getConfigFromPool, hrec]
    rw [hres, hxitem]
    show x.config ≠ c
    exact ha.2.2 x hxmem

/-- C10. After pool initialization, every state reachable by any sequence of
acquire, release, and maintenance operations has a slot list of exactly
`poolSize` (5) slots, none of them temporary: temporary slots are never
appended to the list, and released or refreshed slots are modified in
place. -/
theorem pool_membership_invariant (t0 : Nat) (st : PoolState)
    (h : PoolReachable (initializeConfigPool t0) st) :
    st.configPool.length = poolSize ∧ ∀ x ∈ st.configPool, x.temporary = false := by
  obtain ⟨hlen, -, hnt, -⟩ := poolReachable_preserves h
  constructor
  · rw [hlen]
    simp [initializeConfigPool]
  · apply hnt
    intro x hx
    simp only [initializeConfigPool, List.mem_map] at hx
    obtain ⟨i, -, hi⟩ := hx
    rw [← hi]

/-- C10 witness: the freshly initialized pool itself. -/
theorem pool_membership_invariant_witness :
    (initializeConfigPool 0).configPool.length = poolSize ∧
    ∀ x ∈ (initializeConfigPool 0).configPool, x.temporary = false :=
  pool_membership_invariant 0 (initializeConfigPool 0) (PoolReachable.refl _)

/-- C5. Releasing a temporary slot leaves the pool list untouched,
increments the `destroyed` counter (its handle is closed), and — assuming
the handle well-formedness `PoolAvoid` that holds in every reachable state —
no future `acquire`, after any further sequence of operations, ever returns
a slot carrying that handle.  Releasing a non-temporary slot leaves the
counters alone and marks the pool entry carrying the slot's handle as
`inUse = false` with `lastUsed` updated, making it available: if every other
slot is in use, the next `acquire` returns exactly that slot. -/
theorem returnConfigToPool_spec (st : PoolState) (now : Nat) (item : PoolItem) :
    (item.temporary = true →
      (returnConfigToPool now st item).configPool = st.configPool ∧
      (returnConfigToPool now st item).poolStats.destroyed = st.poolStats.destroyed + 1 ∧
      (PoolAvoid item.config st →
        ∀ st', PoolReachable (returnConfigToPool now st item) st' →
          ∀ now', ((getConfigFromPool now' st').1).config ≠ item.config)) ∧
    (item.temporary = false →
      (returnConfigToPool now st item).poolStats = st.poolStats ∧
      (∀ i : Nat, (returnConfigToPool now st item).configPool[i]? =
        (st.configPool[i]?).map fun it =>
          if it.config = item.config then { it with inUse := false, lastUsed := now }
          else it) ∧
      ((∃ y ∈ st.configPool, y.config = item.config) →
        (∀ y ∈ st.configPool, y.config ≠ item.config → y.inUse = true) →
        ∀ now', ((getConfigFromPool now' (returnConfigToPool now st item)).1).config =
          item.config)) := by
  constructor
  · intro ht
    have hres : returnConfigToPool now st item =
        { st with
            poolStats :=
              { st.poolStats with destroyed := st.poolStats.destroyed + 1 } } := by
      simp [returnConfigToPool, ht]
    refine ⟨by rw [hres], by rw [hres], ?_⟩
    intro hA st' hreach now'
    have hA' : PoolAvoid item.config (returnConfigToPool now st item) := by
      rw [hres]
      exact hA
    have hA'' : PoolAvoid item.config st' :=
      (poolReachable_preserves hreach).2.2.2 _ hA'
    exact getConfigFromPool_config_ne st' now' item.config hA''
  · intro ht
    have hres : returnConfigToPool now st item =
        { st with
            configPool := st.configPool.map fun it =>
              if it.config = item.config then { it with inUse := false, lastUsed := now }
              else it } := by
      simp [returnConfigToPool, ht]
    refine ⟨by rw [hres], ?_, ?_⟩
    · intro i
      rw [hres]
      exact List.getElem?_map _ _ _
    · rintro ⟨y, hy, hyc⟩ hoth now'
      have hexy : ∃ z ∈ (returnConfigToPool now st item).configPool,
          z.config = item.config ∧ z.inUse = false := by
        rw [hres]
        have hmem := List.mem_map_of_mem (fun it =>
          if it.config = item.config then { it with inUse := false, lastUsed := now }
          else it) hy
        have hmem2 : (if y.config = item.config then
            { y with inUse := false, lastUsed := now } else y) ∈
            (st.configPool.map fun it =>
              if it.config = item.config then { it with inUse := false, lastUsed := now }
              else it) := hmem
        rw [if_pos hyc] at hmem2
        exact ⟨{ y with inUse := false, lastUsed := now }, hmem2, hyc, rfl⟩
      have hoth' : ∀ z ∈ (returnConfigToPool now st item).configPool,
          z.config ≠ item.config → z.inUse = true := by
        rw [hres]
        intro z hz hzc
        obtain ⟨w, hw, hwz⟩ := List.mem_map.mp hz
        by_cases hwc : w.config = item.config
        · rw [if_pos hwc] at hwz
          rw [← hwz] at hzc
          exact absurd hwc hzc
        · rw [if_neg hwc] at hwz
          rw [← hwz]
          exact hoth w hw hwc
      obtain ⟨item', l', hacq, hic⟩ :=
        acquireFromList_unique_avail now' item.config
          (returnConfigToPool now st item).configPool hexy hoth'
      have hres2 : (getConfigFromPool now' (returnConfigToPool now st item)).1 = item' := by
        simp only [getConfigFromPool, hacq]
      rw [hres2]
      exact hic

/-- C5 witness: a one-slot pool (handle 0, in use, supply at 2).  Releasing
the temporary slot with handle 1 bumps `destroyed` and the immediately
following acquire does not return handle 1; releasing the non-temporary
slot with handle 0 frees the pool entry, and the next acquire returns it. -/
theorem returnConfigToPool_spec_witness :
    (PoolItem.mk 1 true true 0 0).temporary = true ∧
    PoolAvoid 1 (PoolState.mk [PoolItem.mk 0 true false 0 0] (PoolStats.mk 1 0 0) 2) ∧
    ((returnConfigToPool 3 (PoolState.mk [PoolItem.mk 0 true false 0 0]
        (PoolStats.mk 1 0 0) 2) (PoolItem.mk 1 true true 0 0)).poolStats.destroyed =
      0 + 1) ∧
    ((getConfigFromPool 9 (returnConfigToPool 3 (PoolState.mk
        [PoolItem.mk 0 true false 0 0] (PoolStats.mk 1 0 0) 2)
        (PoolItem.mk 1 true true 0 0))).1).config ≠ 1 ∧
    (PoolItem.mk 0 true false 5 5).temporary = false ∧
    ((getConfigFromPool 9 (returnConfigToPool 3 (PoolState.mk
        [PoolItem.mk 0 true false 0 0] (PoolStats.mk 1 0 0) 2)
        (PoolItem.mk 0 true false 5 5))).1).config = 0 :=
  ⟨rfl, by decide,
   ((returnConfigToPool_spec (PoolState.mk [PoolItem.mk 0 true false 0 0]
       (PoolStats.mk 1 0 0) 2) 3 (PoolItem.mk 1 true true 0 0)).1 rfl).2.1,
   ((returnConfigToPool_spec (PoolState.mk [PoolItem.mk 0 true false 0 0]
       (PoolStats.mk 1 0 0) 2) 3 (PoolItem.mk 1 true true 0 0)).1 rfl).2.2
     (by decide) _ (PoolReachable.refl _) 9,
   rfl,
   ((returnConfigToPool_spec (PoolState.mk [PoolItem.mk 0 true false 0 0]
       (PoolStats.mk 1 0 0) 2) 3 (PoolItem.mk 0 true false 5 5)).2 rfl).2.2
     (by decide) (by decide) 9⟩

/-- C6 witness: the transcript tier's parameters (capacity 30, TTL 60000 ms)
with the 31 distinct keys 0..30 inserted in order: key 0 is evicted, key 30
is retrievable. -/
theorem tier_eviction_order_witness :
    evictionKvs = evictionFront ++ [(30, 30)] ∧
    evictionFront.head? = some (0, 0) ∧
    evictionFront.length = 30 ∧
    (evictionKvs.map Prod.fst).Nodup ∧
    tierGet (evictionKvs.foldl (fun m kv => tierSet 30 60000 0 m kv.1 kv.2) []) 0 0 = none ∧
    tierGet (evictionKvs.foldl (fun m kv => tierSet 30 60000 0 m kv.1 kv.2) []) 0 30 =
      some 30 :=
  ⟨rfl, by decide, by decide, by decide,
   (tier_eviction_order 30 60000 0 evictionKvs evictionFront 0 30 0 30 rfl
     (by decide) (by decide) (by decide) (by decide)).1,
   (tier_eviction_order 30 60000 0 evictionKvs evictionFront 0 30 0 30 rfl
     (by decide) (by decide) (by decide) (by decide)).2⟩

end NRAI
